import Mathlib

/-!
Verification development for the TopoART topology-learning wrapper
(src/topological/TopoART.py).

The wrapper is modelled as a pure state-transformer over explicit lists:
numpy arrays become lists, in-place mutation becomes state passing, and a
Python exception (IndexError, ValueError, broadcasting error, exceeding the
recursion limit) becomes `none` in an `Option` result.

The base ART module (`common.BaseART` and the concrete matchers) is not part
of the excerpt; it is modelled from the spec as an abstract record of the
operations the wrapper consumes (spec section 4.1): activation
(`category_choice`), binary vigilance test (`match_criterion_bin`), learning
step (`update`) and initial-weight creation (`new_weight`).  Scores are
modelled as rationals.
-/

/-- Modelled from the spec: the parameter record the wrapper reads and
writes.  The wrapper only ever reads `beta_lower`, `tau` and `phi`, and
replaces `beta` when passing parameters to the matcher; all other
matcher-specific parameters are owned by the abstract base module. -/
structure Params where
  beta : ℚ
  beta_lower : ℚ
  tau : ℕ
  phi : ℕ
  deriving DecidableEq, Repr

/-- Modelled from the spec: the Category Matcher contract of section 4.1.
`common.BaseART` and the concrete ART modules are not in the excerpt; the
wrapper delegates `category_choice`, `match_criterion_bin`, `update` and
(per the spec's stated intent) `new_weight` to this record. -/
structure BaseModule (S Wt Cc : Type) where
  category_choice : S → Wt → Params → ℚ × Cc
  match_criterion_bin : S → Wt → Params → Cc → Bool × Cc
  update : S → Wt → Params → Cc → Wt
  new_weight : S → Params → Wt

/-- The optional match-reset predicate: receives the sample, the candidate
weight, the candidate index, the params and the cache, and returns false to
veto an otherwise-passing match. -/
def ResetFn (S Wt Cc : Type) := S → Wt → ℕ → Params → Cc → Bool

/-- The wrapper's mutable state: the ordered weight collection `W` (owned by
the base module in the source, held here directly), the adjacency matrix,
the per-category counter vector (`_counter`), the permanence mask
(`_permanent_mask`) and the per-sample label buffer (`labels_`). -/
structure TopoState (Wt : Type) where
  W : List Wt
  adjacency : List (List ℕ)
  counter : List ℕ
  permanent_mask : List Bool
  labels_ : List ℕ
  deriving DecidableEq, Repr

/-- Fresh wrapper state (TopoART.__init__, lines 22-24).  The source
initializes adjacency, counter and mask to 0-dimensional numpy arrays
(`np.zeros([])`); a 0-d array is not iterable and cannot be padded with a
2-d pad width, so those sentinel values only make sense as "no categories
yet"; they are modelled as empty collections. -/
def initState (Wt : Type) : TopoState Wt :=
  { W := [], adjacency := [], counter := [], permanent_mask := [], labels_ := [] }

/-- Entry (i, j) of an adjacency matrix, 0 outside the stored rectangle. -/
def adjEntry (adj : List (List ℕ)) (i j : ℕ) : ℕ :=
  (adj.getD i []).getD j 0

/-- np.pad(adjacency, ((0,1),(0,1))): one zero column appended to every row
and one zero row appended at the bottom. -/
def padAdj (adj : List (List ℕ)) : List (List ℕ) :=
  (adj.map (fun row => row ++ [0])) ++ [List.replicate (adj.length + 1) 0]

/-- Increment position `i` of a vector of counts; out of range, nothing
happens (in every reachable call the index is in range, where numpy would
also succeed). -/
def bumpRow : List ℕ → ℕ → List ℕ
  | [], _ => []
  | a :: t, 0 => (a + 1) :: t
  | a :: t, n + 1 => a :: bumpRow t n

/-- Increment entry (r, c) of an adjacency matrix. -/
def bumpAdj : List (List ℕ) → ℕ → ℕ → List (List ℕ)
  | [], _, _ => []
  | row :: rest, 0, c => bumpRow row c :: rest
  | row :: rest, r + 1, c => row :: bumpAdj rest r c

/-- np.where(mask)[0]: the ascending list of indices holding `true`. -/
def trueIndices : List Bool → List ℕ
  | [] => []
  | b :: rest =>
    let t := (trueIndices rest).map (· + 1)
    if b then 0 :: t else t

/-- In-place boolean `+=` (or-assignment) with numpy broadcasting: the
right-hand side must have the same length, or length 1 (broadcast over the
left); any other shape pair raises, modelled as `none`. -/
def broadcastOr (m b : List Bool) : Option (List Bool) :=
  if b.length = m.length then some (List.zipWith or m b)
  else
    match b with
    | [c] => some (m.map (fun a => a || c))
    | _ => none

/-- np.argmax: the first index attaining the maximum (ties: lowest index
wins).  On the empty list (where numpy raises) it returns 0; every call in
this development is guarded by nonemptiness. -/
def argmaxIdx : List ℚ → ℕ
  | [] => 0
  | [_] => 0
  | a :: b :: rest =>
    let j := argmaxIdx (b :: rest)
    if a < (b :: rest).getD j 0 then j + 1 else 0

/-- First position of `a` in a list (np.where(l == a)[0][0]); meaningful
when `a` is a member. -/
def posIn (a : ℕ) : List ℕ → ℕ
  | [] => 0
  | b :: t => if b = a then 0 else posIn a t + 1

namespace TopoART

/-- TopoART.new_weight, modelled faithfully (lines 125-141): it pads the
adjacency matrix, appends a counter slot initialized to 1 and a mask slot
initialized to false, and then recursively invokes ITSELF (line 141:
`return self.new_weight(i, params)`) rather than the base module's
new-weight operation.  The fuel argument models the Python call stack; `none`
is the RecursionError raised when the stack is exhausted. -/
def new_weight {S Wt : Type} (p : Params) (x : S) :
    ℕ → TopoState Wt → Option (TopoState Wt × Wt)
  | 0, _ => none
  | fuel + 1, s =>
    new_weight p x fuel
      { s with
        adjacency := padAdj s.adjacency,
        counter := s.counter ++ [1],
        permanent_mask := s.permanent_mask ++ [false] }

/-- Weight creation as the spec states the intent (sections 4.1 and 9): the
same padding of adjacency / counter / mask that the source performs, followed
by delegation to the base module's new-weight operation.  The source's own
`new_weight` (modelled faithfully above) self-recurses instead of delegating;
the spec flags that as a defect, and the rest of this development models the
delegating behaviour so the surrounding algorithm is expressible at all. -/
def new_weight_delegating {S Wt Cc : Type} (M : BaseModule S Wt Cc) (p : Params)
    (x : S) (s : TopoState Wt) : TopoState Wt × Wt :=
  ({ s with
      adjacency := padAdj s.adjacency,
      counter := s.counter ++ [1],
      permanent_mask := s.permanent_mask ++ [false] },
   M.new_weight x p)

/-- TopoART.update (lines 107-123): when the cache carries a non-negative
first-resonant index, increment adjacency[resonant][current] — this is the
only adjacency write in the program and happens immediately before
delegating — and then delegate to the base module's update.  The source
threads `resonant_c` / `current_c` through the cache dict; they are explicit
arguments here. -/
def update {S Wt Cc : Type} (M : BaseModule S Wt Cc) (x : S) (w : Wt)
    (p : Params) (cache : Cc) (resonant_c : Option ℕ) (current_c : ℕ)
    (adj : List (List ℕ)) : List (List ℕ) × Wt :=
  match resonant_c with
  | some r => (bumpAdj adj r current_c, M.update x w p cache)
  | none => (adj, M.update x w p cache)

/-- Line 202-205 of step_fit: `no_match_reset = (match_reset_func is None or
match_reset_func(x, w, c_, params=..., cache=cache))`. -/
def resetOk {S Wt Cc : Type} (reset : Option (ResetFn S Wt Cc)) (x : S) (w : Wt)
    (c : ℕ) (p : Params) (cache : Cc) : Bool :=
  match reset with
  | none => true
  | some f => f x w c p cache

/-- Ghost record of one call to the matcher's update during a step_fit:
which category was updated and with which parameter record. -/
structure UpdCall where
  cat : ℕ
  used : Params
  deriving DecidableEq, Repr

/-- The resonance-search loop of step_fit (lines 197-224), with the local
variables of the source as arguments: the activation vector `T`, the cache
tuple, and `resonant_c` (`none` for the sentinel -1).  Each iteration picks
the argmax of `T`; a passing, unvetoed match updates that category (with
`beta`, or `beta_lower` after the first resonance) and either records the
first resonance and continues with `T` unchanged, or returns the first
resonant index; a failing or vetoed match sets the `T` entry to -1.  The
fuel only bounds the iteration count (each iteration either returns, moves
`resonant_c` from none to some, or turns a positive `T` entry negative, so
the count of positive entries plus two always suffices); the ghost `evs`
list records the update calls in order. -/
def fitLoop {S Wt Cc : Type} (M : BaseModule S Wt Cc) (p : Params)
    (reset : Option (ResetFn S Wt Cc)) (x : S) (caches : List Cc) :
    ℕ → List ℚ → Option ℕ → TopoState Wt → List UpdCall →
    Option (Option ℕ × TopoState Wt × List UpdCall)
  | 0, _, _, _, _ => none
  | fuel + 1, T, resonant, s, evs =>
    if T.any (fun t => decide (0 < t)) then
      let c := argmaxIdx T
      match s.W.get? c, caches.get? c with
      | some w, some cache0 =>
        let mc := M.match_criterion_bin x w p cache0
        if mc.1 && resetOk reset x w c p mc.2 then
          let pUse := match resonant with
            | none => p
            | some _ => { p with beta := p.beta_lower }
          let aw := update M x w pUse mc.2 resonant c s.adjacency
          let s2 := { s with adjacency := aw.1, W := s.W.set c aw.2 }
          match resonant with
          | none => fitLoop M p reset x caches fuel T (some c) s2 (evs ++ [⟨c, pUse⟩])
          | some r => some (some r, s2, evs ++ [⟨c, pUse⟩])
        else
          fitLoop M p reset x caches fuel (T.set c (-1)) resonant s evs
      | _, _ => none
    else
      some (resonant, s, evs)

/-- TopoART.step_fit (lines 171-232).  With no categories: create one (the
padding of the stale arrays is immediately overwritten by the fresh 1-category
shapes of lines 190-192), return index 0.  Otherwise run the resonance-search
loop over the activation vector; if it ends with no resonance, create a new
category and return its index, else return the first resonant index.  The
returned `List UpdCall` is ghost instrumentation recording the matcher-update
calls; `none` would model a Python exception (it never occurs: the chosen
fuel dominates the loop measure and the loop indexes inside bounds). -/
def step_fit {S Wt Cc : Type} (M : BaseModule S Wt Cc) (p : Params)
    (reset : Option (ResetFn S Wt Cc)) (x : S) (s : TopoState Wt) :
    Option (ℕ × TopoState Wt × List UpdCall) :=
  if s.W.length = 0 then
    let sw := new_weight_delegating M p x s
    let s1 := { sw.1 with W := sw.1.W ++ [sw.2] }
    some (0, { s1 with adjacency := [[0]], counter := [1], permanent_mask := [false] }, [])
  else
    let TC := s.W.map (fun w => M.category_choice x w p)
    let T := TC.map Prod.fst
    let caches := TC.map Prod.snd
    match fitLoop M p reset x caches (T.countP (fun t => decide (0 < t)) + 2) T none s [] with
    | none => none
    | some (resonant, s2, evs) =>
      match resonant with
      | some r => some (r, s2, evs)
      | none =>
        let c_new := s2.W.length
        let sw := new_weight_delegating M p x s2
        some (c_new, { sw.1 with W := sw.1.W ++ [sw.2] }, evs)

/-- Line 145 of prune: `self._permanent_mask += (self._counter >= phi)`,
with numpy's broadcasting rules. -/
def pruneMask {Wt : Type} (p : Params) (s : TopoState Wt) : Option (List Bool) :=
  broadcastOr s.permanent_mask (s.counter.map (fun c => decide (p.phi ≤ c)))

/-- Line 147 of prune: `[w for w, pm in zip(self.W, self._permanent_mask) if pm]`
(zip truncates to the shorter of the two). -/
def keepPermanent {Wt : Type} (W : List Wt) (mask : List Bool) : List Wt :=
  (W.zip mask).filterMap (fun wp => if wp.2 then some wp.1 else none)

/-- The label-remapping loop of prune (lines 156-164), iterating over
`enumerate(X)`: a label that survived is rewritten to its position in the
permanent-index list; a dropped label is re-assigned by argmax activation
over the surviving weights (raising, modelled as `none`, when none survive)
and the chosen survivor's counter is incremented. -/
def pruneRemap {S Wt Cc : Type} (M : BaseModule S Wt Cc) (p : Params)
    (Wk : List Wt) (perm : List ℕ) :
    List (ℕ × S) → List ℕ → List ℕ → Option (List ℕ × List ℕ)
  | [], labels, counter => some (labels, counter)
  | (i, x) :: rest, labels, counter =>
    match labels.get? i with
    | none => none
    | some l =>
      if l ∈ perm then
        pruneRemap M p Wk perm rest (labels.set i (posIn l perm)) counter
      else
        match Wk with
        | [] => none
        | _ :: _ =>
          let T := Wk.map (fun w => (M.category_choice x w p).1)
          let nl := argmaxIdx T
          pruneRemap M p Wk perm rest (labels.set i nl) (bumpRow counter nl)

/-- TopoART.prune (lines 144-164): or the permanence test into the mask,
keep the weights at mask-true positions, select the counters at the
mask-true indices, and remap every label over the whole dataset.  The
adjacency matrix is not touched anywhere in the pass, and the mask is
stored un-compacted. -/
def prune {S Wt Cc : Type} (M : BaseModule S Wt Cc) (p : Params) (X : List S)
    (s : TopoState Wt) : Option (TopoState Wt) :=
  match pruneMask p s with
  | none => none
  | some mask =>
    match (trueIndices mask).mapM (fun j => s.counter.get? j) with
    | none => none
    | some counter =>
      match pruneRemap M p (keepPermanent s.W mask) (trueIndices mask) X.enum
          s.labels_ counter with
      | none => none
      | some lc =>
        some { s with W := keepPermanent s.W mask, permanent_mask := mask,
                      counter := lc.2, labels_ := lc.1 }

/-- The value the remap loop of prune assigns at one label slot: the
position of a surviving label inside the permanent-index list, or the argmax
activation over the surviving weights for a dropped label (a ghost
abbreviation of the two branches of lines 157-163, used by theorems). -/
def remapValue {S Wt Cc : Type} (M : BaseModule S Wt Cc) (p : Params)
    (Wk : List Wt) (perm : List ℕ) (l : ℕ) (x : S) : ℕ :=
  if l ∈ perm then posIn l perm
  else argmaxIdx (Wk.map (fun w => (M.category_choice x w p).1))

/-- How many slots of a prune pass are re-assigned to survivor `j`: the
slots whose old label was dropped and whose argmax activation picks `j`
(ghost abbreviation used by theorems). -/
def reassignedCount {S Wt Cc : Type} (M : BaseModule S Wt Cc) (p : Params)
    (Wk : List Wt) (perm : List ℕ) (labels : List ℕ) (pairs : List (ℕ × S))
    (j : ℕ) : ℕ :=
  (pairs.filter (fun ix =>
    decide (labels.getD ix.1 0 ∉ perm) &&
    decide (argmaxIdx (Wk.map (fun w => (M.category_choice ix.2 w p).1)) = j))).length

/-- TopoART.step_prune (lines 166-169): run a prune pass exactly when the
sum of the counters is positive and divisible by tau. -/
def step_prune {S Wt Cc : Type} (M : BaseModule S Wt Cc) (p : Params)
    (X : List S) (s : TopoState Wt) : Option (TopoState Wt) :=
  let sum_counter := s.counter.sum
  if 0 < sum_counter ∧ sum_counter % p.tau = 0 then prune M p X s else some s

/-- One epoch of fit (lines 253-256): for each (i, x) in enumerate(X), run
step_prune on the whole dataset, then step_fit on the sample, and record the
returned label at position i. -/
def fitEpoch {S Wt Cc : Type} (M : BaseModule S Wt Cc) (p : Params)
    (reset : Option (ResetFn S Wt Cc)) (X : List S) :
    List (ℕ × S) → TopoState Wt → Option (TopoState Wt)
  | [], s => some s
  | (i, x) :: rest, s =>
    match step_prune M p X s with
    | none => none
    | some s1 =>
      match step_fit M p reset x s1 with
      | none => none
      | some (c, s2, _evs) =>
        fitEpoch M p reset X rest { s2 with labels_ := s2.labels_.set i c }

/-- The epoch loop of fit (line 252): max_iter passes over the dataset. -/
def fitIter {S Wt Cc : Type} (M : BaseModule S Wt Cc) (p : Params)
    (reset : Option (ResetFn S Wt Cc)) (X : List S) :
    ℕ → TopoState Wt → Option (TopoState Wt)
  | 0, s => some s
  | k + 1, s =>
    match fitEpoch M p reset X X.enum s with
    | none => none
    | some s1 => fitIter M p reset X k s1

/-- TopoART.fit (lines 235-257): reset the weight collection and the label
buffer (counters, mask and adjacency are NOT reset here), then run the
epochs.  Data validation is delegated to the base module and not modelled. -/
def fit {S Wt Cc : Type} (M : BaseModule S Wt Cc) (p : Params)
    (reset : Option (ResetFn S Wt Cc)) (X : List S) (max_iter : ℕ)
    (s : TopoState Wt) : Option (TopoState Wt) :=
  fitIter M p reset X max_iter
    { s with W := [], labels_ := List.replicate X.length 0 }

end TopoART

/-! ### Concrete instances used by witnesses and counterexamples -/

/-- A concrete matcher over rational samples and weights: activation is
always 1, the vigilance test always passes, update returns the weight
unchanged, and the new weight is the sample itself. -/
def Mres : BaseModule ℚ ℚ Unit :=
  { category_choice := fun _ _ _ => (1, ())
    match_criterion_bin := fun _ _ _ _ => (true, ())
    update := fun _ w _ _ => w
    new_weight := fun x _ => x }

/-- A concrete matcher whose activation is never positive and whose
vigilance test never passes: every sample creates a new category. -/
def Mnew : BaseModule ℚ ℚ Unit :=
  { category_choice := fun _ _ _ => (0, ())
    match_criterion_bin := fun _ _ _ _ => (false, ())
    update := fun _ w _ _ => w
    new_weight := fun x _ => x }

/-- A concrete parameter record with beta 1, beta_lower 0, tau 3, phi 2
(satisfying the validation constraints beta_lower ≤ beta and phi ≤ tau). -/
def pEx : Params := { beta := 1, beta_lower := 0, tau := 3, phi := 2 }

/-- A concrete parameter record with tau 2 (so no prune fires during a
two-sample run whose counter sum is 1 before the second sample). -/
def pEx2 : Params := { beta := 1, beta_lower := 0, tau := 2, phi := 2 }

/-- A one-category state (category weight 0, fresh counters/mask, a
two-slot label buffer), used as a concrete step_fit input. -/
def sOne : TopoState ℚ :=
  { W := [0], adjacency := [[0]], counter := [1], permanent_mask := [false],
    labels_ := [0, 0] }

/-- The state step_fit produces from `sOne` with the always-resonating
matcher: the single category resonates twice and adjacency[0][0] becomes 1. -/
def sOneAfter : TopoState ℚ :=
  { W := [0], adjacency := [[1]], counter := [1], permanent_mask := [false],
    labels_ := [0, 0] }

/-- The two update calls recorded in that run: first with beta, then with
beta replaced by beta_lower. -/
def evsTwo : List TopoART.UpdCall :=
  [⟨0, pEx2⟩, ⟨0, { pEx2 with beta := pEx2.beta_lower }⟩]

/-- The state fit produces from two samples with the never-resonating
matcher: two categories, zero adjacency, unit counters. -/
def fitTwoResult : TopoState ℚ :=
  { W := [1, 2], adjacency := [[0, 0], [0, 0]], counter := [1, 1],
    permanent_mask := [false, false], labels_ := [0, 1] }

/-- A size-aligned two-category state whose category 1 already carries the
permanence flag, used as a concrete prune input. -/
def sPerm : TopoState ℚ :=
  { W := [10, 20], adjacency := [[0, 1], [2, 3]], counter := [1, 5],
    permanent_mask := [false, true], labels_ := [1, 1] }

/-- A two-category state with counters 1 and 5 and a cleared mask: a prune
pass with phi 2 drops category 0 and keeps category 1. -/
def sDrop : TopoState ℚ :=
  { W := [10, 20], adjacency := [[0, 1], [2, 3]], counter := [1, 5],
    permanent_mask := [false, false], labels_ := [1, 1] }

/-- The state the prune pass produces from `sDrop` (weights and counters
compacted; adjacency and mask left at their old shapes). -/
def sDropAfter : TopoState ℚ :=
  { W := [20], adjacency := [[0, 1], [2, 3]], counter := [5],
    permanent_mask := [false, true], labels_ := [0, 0] }

/-! ### Theorems -/

open TopoART

/-- C1 (claim refuted, code bug): the claim states that creating a new
weight terminates and appends one category.  The source's `new_weight`
invokes itself recursively (line 141), so for every call-stack budget the
call exhausts the stack and produces no weight: the creation path of
step_fit can never complete in the source as written. -/
theorem new_weight_never_terminates {S Wt : Type} (p : Params) (x : S) :
    ∀ (fuel : ℕ) (s : TopoState Wt), TopoART.new_weight p x fuel s = none := by
  intro fuel
  induction fuel with
  | zero => intro s; rfl
  | succ n ih => intro s; exact ih _

/-- C8: step_prune runs a full prune pass exactly when the sum of the
counters, observed before the current sample is processed, is strictly
positive and divisible by tau; in particular a zero sum (fresh model, no
categories) never triggers a pass. -/
theorem step_prune_trigger {S Wt Cc : Type} (M : BaseModule S Wt Cc) (p : Params)
    (X : List S) (s : TopoState Wt) :
    (TopoART.step_prune M p X s =
      if 0 < s.counter.sum ∧ p.tau ∣ s.counter.sum then TopoART.prune M p X s else some s) ∧
    (s.counter.sum = 0 → TopoART.step_prune M p X s = some s) := by
  have hiff : (0 < s.counter.sum ∧ s.counter.sum % p.tau = 0) ↔
      (0 < s.counter.sum ∧ p.tau ∣ s.counter.sum) := by
    constructor
    · rintro ⟨h1, h2⟩; exact ⟨h1, Nat.dvd_iff_mod_eq_zero.2 h2⟩
    · rintro ⟨h1, h2⟩; exact ⟨h1, Nat.dvd_iff_mod_eq_zero.1 h2⟩
  constructor
  · simp only [TopoART.step_prune]
    exact if_congr hiff rfl rfl
  · intro h0
    simp [TopoART.step_prune, h0]

/-- C8 witness: on a fresh model (empty counter vector) the sum is 0 and no
prune pass runs. -/
theorem step_prune_trigger_witness :
    TopoART.step_prune Mnew pEx ([] : List ℚ) (initState ℚ) = some (initState ℚ) :=
  (step_prune_trigger Mnew pEx [] (initState ℚ)).2 rfl

/-- C2 (claim refuted, code bug): a completed prune pass that drops the
non-permanent category 0 of a two-category state shrinks the weight list and
the counter vector to length 1, but leaves the adjacency matrix at its old
2-by-2 shape and the permanence mask at length 2: the rows/columns and mask
entries of the dropped category are not removed, violating the equal-length
invariant the claim states. -/
theorem prune_drop_keeps_adjacency_and_mask :
    (TopoART.prune Mres pEx [(1 : ℚ), 2]
        { W := [(10 : ℚ), 20], adjacency := [[0, 1], [2, 3]], counter := [1, 5],
          permanent_mask := [false, false], labels_ := [1, 1] }).map
      (fun s => (s.W.length, s.counter.length, s.adjacency, s.permanent_mask)) =
    some (1, 1, [[0, 1], [2, 3]], [false, true]) := by
  decide

/-- C7 (claim refuted, code bug): after the first resonance the loop does
not invalidate the winner's activation entry, so the same category is
selected again as the "second" resonance and the DIAGONAL adjacency entry
(0,0) is incremented: fitting two identical samples with an
always-resonating matcher reaches a state whose adjacency matrix is [[1]]. -/
theorem step_fit_self_resonance_diagonal :
    (TopoART.fit Mres pEx2 none [(1 : ℚ), 1] 1 (initState ℚ)).map
      (fun s => adjEntry s.adjacency 0 0) = some 1 := by
  decide

/-- C4 counterexample: with a matcher that never resonates, three samples
and tau 3, the first fit ends with counters [1,1,1]; calling fit again on
the resulting wrapper reads the STALE counters (sum 3, a positive multiple
of tau) at the very first step_prune, fires a prune pass over the emptied
weight list, and aborts — while the same fit on a freshly constructed model
succeeds.  The second fit therefore does not behave as on a fresh model. -/
theorem refit_not_fresh_counterexample :
    ((TopoART.fit Mnew pEx none [(1 : ℚ), 2, 3] 1 (initState ℚ)).bind
        (TopoART.fit Mnew pEx none [(1 : ℚ), 2, 3] 1) = none) ∧
    (TopoART.fit Mnew pEx none [(1 : ℚ), 2, 3] 1 (initState ℚ)).isSome = true := by
  decide

theorem argmaxIdx_lt_length : ∀ (l : List ℚ), l ≠ [] → argmaxIdx l < l.length := by
  intro l
  induction l with
  | nil => intro h; exact absurd rfl h
  | cons a t ih =>
    intro _
    cases t with
    | nil => simp [argmaxIdx]
    | cons b r =>
      simp only [argmaxIdx]
      split
      · have := ih (by simp)
        simpa using Nat.succ_lt_succ this
      · simp

theorem getD_le_argmaxIdx : ∀ (l : List ℚ) (j : ℕ), j < l.length →
    l.getD j 0 ≤ l.getD (argmaxIdx l) 0 := by
  intro l
  induction l with
  | nil => intro j h; simp at h
  | cons a t ih =>
    intro j hj
    cases t with
    | nil =>
      have : j = 0 := by simpa using Nat.lt_one_iff.1 (by simpa using hj)
      subst this
      simp [argmaxIdx]
    | cons b r =>
      simp only [argmaxIdx]
      split
      · next hlt =>
        cases j with
        | zero => simpa [List.getD_cons_succ] using le_of_lt hlt
        | succ k =>
          simp only [List.getD_cons_succ]
          exact ih k (by simpa using Nat.lt_of_succ_lt_succ hj)
      · next hge =>
        cases j with
        | zero => simp
        | succ k =>
          simp only [List.getD_cons_succ, List.getD_cons_zero]
          have h1 := ih k (by simpa using Nat.lt_of_succ_lt_succ hj)
          have h2 : (b :: r).getD (argmaxIdx (b :: r)) 0 ≤ a := le_of_not_lt hge
          exact le_trans h1 h2

theorem any_pos_getD_argmax (l : List ℚ) (h : l.any (fun t => decide (0 < t)) = true) :
    0 < l.getD (argmaxIdx l) 0 := by
  rw [List.any_eq_true] at h
  obtain ⟨x, hx, hpos⟩ := h
  obtain ⟨n, hn, hget⟩ := List.getElem_of_mem hx
  have : l.getD n 0 = x := by
    rw [List.getD_eq_getElem l 0 hn, hget]
  have hle := getD_le_argmaxIdx l n hn
  rw [this] at hle
  exact lt_of_lt_of_le (by simpa using hpos) hle

theorem any_pos_ne_nil (l : List ℚ) (h : l.any (fun t => decide (0 < t)) = true) :
    l ≠ [] := by
  intro he; subst he; simp at h


theorem fitLoop_some_inv {S Wt Cc : Type} (M : BaseModule S Wt Cc) (p : Params)
    (reset : Option (ResetFn S Wt Cc)) (x : S) (caches : List Cc) (r : ℕ) :
    ∀ (fuel : ℕ) (T : List ℚ) (s : TopoState Wt) (evs : List UpdCall)
      (res : Option ℕ) (s' : TopoState Wt) (evs' : List UpdCall),
      fitLoop M p reset x caches fuel T (some r) s evs = some (res, s', evs') →
      res = some r ∧ s'.counter = s.counter ∧ s'.permanent_mask = s.permanent_mask ∧
      s'.labels_ = s.labels_ ∧
      ((s' = s ∧ evs' = evs) ∨
        ∃ c, c < T.length ∧
          s'.adjacency = bumpAdj s.adjacency r c ∧
          evs' = evs ++ [⟨c, { p with beta := p.beta_lower }⟩]) := by
  intro fuel
  induction fuel with
  | zero => intro T s evs res s' evs' h; exact absurd h (by simp [fitLoop])
  | succ n ih =>
    intro T s evs res s' evs' h
    rw [fitLoop] at h
    by_cases hany : (T.any fun t => decide (0 < t)) = true
    · rw [if_pos hany] at h
      dsimp only at h
      split at h
      · next w cache0 hW hC =>
        split at h
        · next hpass =>
          simp only [TopoART.update, Option.some.injEq, Prod.mk.injEq] at h
          obtain ⟨h1, h2, h3⟩ := h
          subst h1
          subst h3
          subst h2
          exact ⟨rfl, rfl, rfl, rfl, Or.inr ⟨argmaxIdx T,
            argmaxIdx_lt_length T (any_pos_ne_nil T hany), rfl, rfl⟩⟩
        · next hpass =>
          have := ih _ _ _ _ _ _ h
          simpa [List.length_set] using this
      · simp at h
    · rw [if_neg hany] at h
      simp only [Option.some.injEq, Prod.mk.injEq] at h
      obtain ⟨h1, h2, h3⟩ := h
      subst h2 h3
      exact ⟨h1.symm, rfl, rfl, rfl, Or.inl ⟨rfl, rfl⟩⟩

theorem fitLoop_none_inv {S Wt Cc : Type} (M : BaseModule S Wt Cc) (p : Params)
    (reset : Option (ResetFn S Wt Cc)) (x : S) (caches : List Cc) :
    ∀ (fuel : ℕ) (T : List ℚ) (s : TopoState Wt) (evs : List UpdCall)
      (res : Option ℕ) (s' : TopoState Wt) (evs' : List UpdCall),
      fitLoop M p reset x caches fuel T none s evs = some (res, s', evs') →
      s'.counter = s.counter ∧ s'.permanent_mask = s.permanent_mask ∧
      s'.labels_ = s.labels_ ∧
      ((res = none ∧ s'.adjacency = s.adjacency ∧ evs' = evs) ∨
        ∃ c1, res = some c1 ∧ c1 < T.length ∧
          ((s'.adjacency = s.adjacency ∧ evs' = evs ++ [⟨c1, p⟩]) ∨
            ∃ c2, c2 < T.length ∧ s'.adjacency = bumpAdj s.adjacency c1 c2 ∧
              evs' = evs ++ [⟨c1, p⟩, ⟨c2, { p with beta := p.beta_lower }⟩])) := by
  intro fuel
  induction fuel with
  | zero => intro T s evs res s' evs' h; exact absurd h (by simp [fitLoop])
  | succ n ih =>
    intro T s evs res s' evs' h
    rw [fitLoop] at h
    by_cases hany : (T.any fun t => decide (0 < t)) = true
    · rw [if_pos hany] at h
      dsimp only at h
      split at h
      · next w cache0 hW hC =>
        split at h
        · next hpass =>
          simp only [TopoART.update] at h
          have hL1 := fitLoop_some_inv M p reset x caches (argmaxIdx T) n
            T _ _ res s' evs' h
          obtain ⟨hres, hcnt, hmask, hlab, hdisj⟩ := hL1
          refine ⟨hcnt, hmask, hlab, Or.inr ⟨argmaxIdx T, hres, argmaxIdx_lt_length T (any_pos_ne_nil T hany), ?_⟩⟩
          rcases hdisj with ⟨hs, hevs⟩ | ⟨c2, hc2, hadj, hevs⟩
          · subst hs
            exact Or.inl ⟨rfl, hevs⟩
          · exact Or.inr ⟨c2, hc2, hadj, by simpa using hevs⟩
        · next hpass =>
          have := ih _ _ _ _ _ _ h
          simpa [List.length_set] using this
      · simp at h
    · rw [if_neg hany] at h
      simp only [Option.some.injEq, Prod.mk.injEq] at h
      obtain ⟨h1, h2, h3⟩ := h
      subst h2 h3
      exact ⟨rfl, rfl, rfl, Or.inl ⟨h1.symm, rfl, rfl⟩⟩

theorem bumpRow_getD : ∀ (row : List ℕ) (c j : ℕ), c < row.length →
    (bumpRow row c).getD j 0 = row.getD j 0 + (if j = c then 1 else 0) := by
  intro row
  induction row with
  | nil => intro c j h; simp at h
  | cons a t ih =>
    intro c j hc
    cases c with
    | zero =>
      cases j with
      | zero => simp [bumpRow]
      | succ k => simp [bumpRow, List.getD_cons_succ]
    | succ c' =>
      cases j with
      | zero => simp [bumpRow, Nat.succ_ne_zero]
      | succ k =>
        simp only [bumpRow, List.getD_cons_succ]
        rw [ih c' k (by simpa using Nat.lt_of_succ_lt_succ hc)]
        simp [Nat.succ_inj]

theorem bumpRow_getD_oob : ∀ (row : List ℕ) (c j : ℕ), row.length ≤ c →
    (bumpRow row c).getD j 0 = row.getD j 0 := by
  intro row
  induction row with
  | nil => intro c j _; cases c <;> rfl
  | cons a t ih =>
    intro c j hc
    cases c with
    | zero => simp at hc
    | succ c' =>
      cases j with
      | zero => simp [bumpRow]
      | succ k =>
        simp only [bumpRow, List.getD_cons_succ]
        exact ih c' k (by simpa using Nat.le_of_succ_le_succ hc)

theorem bumpRow_length : ∀ (row : List ℕ) (c : ℕ), (bumpRow row c).length = row.length := by
  intro row
  induction row with
  | nil => intro c; rfl
  | cons a t ih =>
    intro c
    cases c with
    | zero => rfl
    | succ c' => simpa [bumpRow] using ih c'

theorem bumpAdj_entry : ∀ (adj : List (List ℕ)) (r c i j : ℕ),
    r < adj.length → c < (adj.getD r []).length →
    adjEntry (bumpAdj adj r c) i j =
      adjEntry adj i j + (if i = r ∧ j = c then 1 else 0) := by
  intro adj
  induction adj with
  | nil => intro r c i j hr _; simp at hr
  | cons row rest ih =>
    intro r c i j hr hc
    cases r with
    | zero =>
      cases i with
      | zero =>
        simp only [bumpAdj, adjEntry, List.getD_cons_zero]
        rw [bumpRow_getD row c j (by simpa using hc)]
        simp
      | succ k =>
        simp [bumpAdj, adjEntry, List.getD_cons_succ, Nat.succ_ne_zero]
    | succ r' =>
      cases i with
      | zero =>
        simp [bumpAdj, adjEntry, List.getD_cons_zero, Nat.succ_ne_zero]
      | succ k =>
        simp only [bumpAdj, adjEntry, List.getD_cons_succ]
        have := ih r' c k j (by simpa using Nat.lt_of_succ_lt_succ hr)
          (by simpa [List.getD_cons_succ] using hc)
        simp only [adjEntry] at this
        rw [this]
        simp [Nat.succ_inj]

theorem getD_replicate_zero : ∀ (k j : ℕ), (List.replicate k (0 : ℕ)).getD j 0 = 0 := by
  intro k j
  rcases lt_or_ge j k with h | h
  · rw [List.getD_eq_getElem _ _ (by simpa using h)]
    simp
  · rw [List.getD_eq_default _ _ (by simpa using h)]

theorem getD_append_zero : ∀ (row : List ℕ) (j : ℕ), (row ++ [0]).getD j 0 = row.getD j 0 := by
  intro row j
  rcases lt_or_ge j row.length with h | h
  · exact List.getD_append row [0] 0 j h
  · rw [List.getD_append_right row [0] 0 j h]
    rw [List.getD_eq_default row _ (by simpa using h)]
    rcases Nat.eq_or_lt_of_le h with he | hl
    · rw [← he, Nat.sub_self]
      rfl
    · rw [List.getD_eq_default]
      simp only [List.length_cons, List.length_nil]
      omega

theorem padAdj_entry (adj : List (List ℕ)) (i j : ℕ) :
    adjEntry (padAdj adj) i j = adjEntry adj i j := by
  unfold padAdj adjEntry
  rcases lt_or_ge i adj.length with h | h
  · rw [List.getD_append _ _ _ _ (by simpa using h)]
    have hmap : (adj.map (fun row => row ++ [0])).getD i [] = adj.getD i [] ++ [0] := by
      have h1 : (adj.map (fun row => row ++ [0])).get? i = some (adj.getD i [] ++ [0]) := by
        rw [List.get?_map]
        rw [List.get?_eq_get h, List.getD_eq_getElem _ _ h]
        simp
      show ((adj.map (fun row => row ++ [0])).get? i).getD [] = _
      rw [h1]
      rfl
    rw [hmap]
    exact getD_append_zero _ _
  · rw [List.getD_append_right _ _ _ _ (by simpa using h)]
    simp only [List.length_map]
    rw [List.getD_eq_default adj _ (by simpa using h)]
    rcases Nat.eq_or_lt_of_le h with he | hl
    · simp only [← he, Nat.sub_self]
      simp only [List.getD_cons_zero]
      rw [getD_replicate_zero]
      rfl
    · rw [List.getD_eq_default [List.replicate (adj.length + 1) 0] ([] : List ℕ)
        (by simp only [List.length_cons, List.length_nil]; omega)]

theorem prune_adjacency {S Wt Cc : Type} (M : BaseModule S Wt Cc) (p : Params)
    (X : List S) (u u' : TopoState Wt) (h : TopoART.prune M p X u = some u') :
    u'.adjacency = u.adjacency := by
  unfold TopoART.prune at h
  split at h
  · exact absurd h (by simp)
  · split at h
    · exact absurd h (by simp)
    · split at h
      · exact absurd h (by simp)
      · simp only [Option.some.injEq] at h
        subst h
        rfl

/-- C5: in one step_fit call the recorded matcher-update calls are: none,
or exactly one with the unmodified params (beta), or exactly two — the first
with beta and the second with beta replaced by beta_lower — and as soon as a
second resonance occurs the call returns the FIRST resonant category's
index (also when only one resonance occurred). -/
theorem step_fit_learning_rates {S Wt Cc : Type} (M : BaseModule S Wt Cc) (p : Params)
    (reset : Option (ResetFn S Wt Cc)) (x : S) (s : TopoState Wt)
    (lbl : ℕ) (s' : TopoState Wt) (evs : List UpdCall)
    (h : TopoART.step_fit M p reset x s = some (lbl, s', evs)) :
    evs = [] ∨
    (∃ c1, evs = [⟨c1, p⟩] ∧ lbl = c1) ∨
    (∃ c1 c2, evs = [⟨c1, p⟩, ⟨c2, { p with beta := p.beta_lower }⟩] ∧ lbl = c1) := by
  unfold TopoART.step_fit at h
  split at h
  · simp only [Option.some.injEq, Prod.mk.injEq] at h
    exact Or.inl h.2.2.symm
  · dsimp only at h
    split at h
    · exact absurd h (by simp)
    · next resonant s2 evs0 heq =>
      have hL0 := fitLoop_none_inv M p reset x _ _ _ _ _ _ _ _ heq
      obtain ⟨-, -, -, hdisj⟩ := hL0
      split at h
      · next r =>
        simp only [Option.some.injEq, Prod.mk.injEq] at h
        obtain ⟨hlbl, -, hevs⟩ := h
        subst hlbl
        subst hevs
        rcases hdisj with ⟨hres, -, -⟩ | ⟨c1, hres, -, hrest⟩
        · exact absurd hres (by simp)
        · have hc1 : r = c1 := by
            injection hres
          subst hc1
          rcases hrest with ⟨-, hevs0⟩ | ⟨c2, -, -, hevs0⟩
          · exact Or.inr (Or.inl ⟨r, by simpa using hevs0, rfl⟩)
          · exact Or.inr (Or.inr ⟨r, c2, by simpa using hevs0, rfl⟩)
      · simp only [Option.some.injEq, Prod.mk.injEq] at h
        obtain ⟨-, -, hevs⟩ := h
        subst hevs
        rcases hdisj with ⟨-, -, hevs0⟩ | ⟨c1, hres, -⟩
        · exact Or.inl (by simpa using hevs0)
        · exact absurd hres (by simp)

theorem adjEntry_single_zero (i j : ℕ) : adjEntry [[0]] i j = 0 := by
  cases i <;> cases j <;> simp [adjEntry]

/-- C6: from a size-aligned state, a step_fit whose ghost trace shows two
update calls increments exactly the adjacency entry
(first resonant, second resonant) by one and leaves every counter
unchanged; a step_fit with at most one update call increments no adjacency
entry (category creation only pads with zeros, and the fresh bootstrap
overwrites with the 1-by-1 zero matrix); and a prune pass never changes the
adjacency matrix at all, so the update path is the only place an entry can
grow. -/
theorem second_resonance_adjacency {S Wt Cc : Type} (M : BaseModule S Wt Cc) (p : Params)
    (reset : Option (ResetFn S Wt Cc)) (x : S) (s : TopoState Wt)
    (lbl : ℕ) (s' : TopoState Wt) (evs : List UpdCall)
    (hadj : s.adjacency.length = s.W.length)
    (hrows : ∀ row ∈ s.adjacency, row.length = s.W.length)
    (h : TopoART.step_fit M p reset x s = some (lbl, s', evs)) :
    (∀ e1 e2, evs = [e1, e2] →
      s'.counter = s.counter ∧
      ∀ i j, adjEntry s'.adjacency i j =
        adjEntry s.adjacency i j + (if i = e1.cat ∧ j = e2.cat then 1 else 0)) ∧
    (evs.length ≤ 1 → ∀ i j, adjEntry s'.adjacency i j ≤ adjEntry s.adjacency i j) ∧
    (∀ (Y : List S) (u u' : TopoState Wt),
      TopoART.prune M p Y u = some u' → u'.adjacency = u.adjacency) := by
  refine ?_
  have hprune : ∀ (Y : List S) (u u' : TopoState Wt),
      TopoART.prune M p Y u = some u' → u'.adjacency = u.adjacency :=
    fun Y u u' hp => prune_adjacency M p Y u u' hp
  unfold TopoART.step_fit at h
  split at h
  · simp only [Option.some.injEq, Prod.mk.injEq] at h
    obtain ⟨-, hs', hevs⟩ := h
    subst hevs
    refine ⟨fun e1 e2 hh => absurd hh (by simp), fun _ i j => ?_, hprune⟩
    rw [← hs']
    simp only [adjEntry_single_zero]
    exact Nat.zero_le _
  · dsimp only at h
    split at h
    · exact absurd h (by simp)
    · next resonant s2 evs0 heq =>
      have hL0 := fitLoop_none_inv M p reset x _ _ _ _ _ _ _ _ heq
      obtain ⟨hcnt, -, -, hdisj⟩ := hL0
      split at h
      · next r =>
        simp only [Option.some.injEq, Prod.mk.injEq] at h
        obtain ⟨hlbl, hs', hevs⟩ := h
        subst hs'
        subst hevs
        rcases hdisj with ⟨hres, -, -⟩ | ⟨c1, hres, hc1, hrest⟩
        · exact absurd hres (by simp)
        · have hc1' : c1 < s.W.length := by simpa using hc1
          rcases hrest with ⟨hsame, hevs0⟩ | ⟨c2, hc2, hbump, hevs0⟩
          · subst hevs0
            refine ⟨fun e1 e2 hh => absurd hh (by simp), fun _ i j => ?_, hprune⟩
            rw [hsame]
          · subst hevs0
            refine ⟨fun e1 e2 hh => ?_, fun hle => absurd hle (by simp), hprune⟩
            have he1 : e1 = (⟨c1, p⟩ : UpdCall) := by
              have := congrArg (fun l => l.getD 0 ⟨0, p⟩) hh
              simpa using this.symm
            have he2 : e2 = (⟨c2, { p with beta := p.beta_lower }⟩ : UpdCall) := by
              have := congrArg (fun l => l.getD 1 ⟨0, p⟩) hh
              simpa using this.symm
            refine ⟨hcnt, fun i j => ?_⟩
            have hc2' : c2 < s.W.length := by simpa using hc2
            have hrowlen : c2 < (s.adjacency.getD c1 []).length := by
              have hmem : s.adjacency.getD c1 [] ∈ s.adjacency := by
                rw [List.getD_eq_getElem _ _ (by omega : c1 < s.adjacency.length)]
                exact List.getElem_mem _
              rw [hrows _ hmem]
              exact hc2'
            rw [hbump, bumpAdj_entry s.adjacency c1 c2 i j (by omega) hrowlen]
            subst he1
            subst he2
            rfl
      · next hresnone =>
        simp only [Option.some.injEq, Prod.mk.injEq] at h
        obtain ⟨-, hs', hevs⟩ := h
        subst hevs
        rcases hdisj with ⟨-, hsame, hevs0⟩ | ⟨c1, hres, -⟩
        · subst hevs0
          refine ⟨fun e1 e2 hh => absurd hh (by simp), fun _ i j => ?_, hprune⟩
          rw [← hs']
          simp only [TopoART.new_weight_delegating]
          rw [padAdj_entry, hsame]
        · exact absurd hres (by simp)

theorem step_fit_labels {S Wt Cc : Type} (M : BaseModule S Wt Cc) (p : Params)
    (reset : Option (ResetFn S Wt Cc)) (x : S) (s : TopoState Wt)
    (lbl : ℕ) (s' : TopoState Wt) (evs : List UpdCall)
    (h : TopoART.step_fit M p reset x s = some (lbl, s', evs)) :
    s'.labels_ = s.labels_ := by
  unfold TopoART.step_fit at h
  split at h
  · simp only [Option.some.injEq, Prod.mk.injEq] at h
    rw [← h.2.1]
    rfl
  · dsimp only at h
    split at h
    · exact absurd h (by simp)
    · next resonant s2 evs0 heq =>
      have hL0 := fitLoop_none_inv M p reset x _ _ _ _ _ _ _ _ heq
      obtain ⟨-, -, hlab, -⟩ := hL0
      split at h
      · simp only [Option.some.injEq, Prod.mk.injEq] at h
        rw [← h.2.1]
        exact hlab
      · simp only [Option.some.injEq, Prod.mk.injEq] at h
        rw [← h.2.1]
        exact hlab

theorem pruneRemap_nil {S Wt Cc : Type} (M : BaseModule S Wt Cc) (p : Params)
    (Wk : List Wt) (perm : List ℕ) (labels counter : List ℕ) :
    TopoART.pruneRemap M p Wk perm [] labels counter = some (labels, counter) := rfl

theorem pruneRemap_cons {S Wt Cc : Type} (M : BaseModule S Wt Cc) (p : Params)
    (Wk : List Wt) (perm : List ℕ) (i : ℕ) (x : S) (rest : List (ℕ × S))
    (labels counter : List ℕ) :
    TopoART.pruneRemap M p Wk perm ((i, x) :: rest) labels counter =
      match labels.get? i with
      | none => none
      | some l =>
        if l ∈ perm then
          TopoART.pruneRemap M p Wk perm rest (labels.set i (posIn l perm)) counter
        else
          match Wk with
          | [] => none
          | _ :: _ =>
            TopoART.pruneRemap M p Wk perm rest
              (labels.set i (argmaxIdx (Wk.map (fun w => (M.category_choice x w p).1))))
              (bumpRow counter (argmaxIdx (Wk.map (fun w => (M.category_choice x w p).1)))) := by
  rfl

theorem pruneRemap_labels_length {S Wt Cc : Type} (M : BaseModule S Wt Cc) (p : Params)
    (Wk : List Wt) (perm : List ℕ) :
    ∀ (pairs : List (ℕ × S)) (labels counter L C : List ℕ),
      TopoART.pruneRemap M p Wk perm pairs labels counter = some (L, C) →
      L.length = labels.length := by
  intro pairs
  induction pairs with
  | nil =>
    intro labels counter L C h
    simp only [TopoART.pruneRemap, Option.some.injEq, Prod.mk.injEq] at h
    rw [← h.1]
  | cons ix rest ih =>
    intro labels counter L C h
    obtain ⟨i, x⟩ := ix
    rw [pruneRemap_cons] at h
    split at h
    · exact absurd h (by simp)
    · next l hl =>
      split at h
      · have := ih _ _ _ _ h
        simpa [List.length_set] using this
      · split at h
        · exact absurd h (by simp)
        · have := ih _ _ _ _ h
          simpa [List.length_set] using this

theorem prune_labels_length {S Wt Cc : Type} (M : BaseModule S Wt Cc) (p : Params)
    (X : List S) (u u' : TopoState Wt) (h : TopoART.prune M p X u = some u') :
    u'.labels_.length = u.labels_.length := by
  unfold TopoART.prune at h
  split at h
  · exact absurd h (by simp)
  · split at h
    · exact absurd h (by simp)
    · split at h
      · exact absurd h (by simp)
      · next lc hlc =>
        simp only [Option.some.injEq] at h
        subst h
        exact pruneRemap_labels_length M p _ _ _ _ _ _ _ hlc

theorem step_prune_labels_length {S Wt Cc : Type} (M : BaseModule S Wt Cc) (p : Params)
    (X : List S) (u u' : TopoState Wt) (h : TopoART.step_prune M p X u = some u') :
    u'.labels_.length = u.labels_.length := by
  unfold TopoART.step_prune at h
  dsimp only at h
  split at h
  · exact prune_labels_length M p X u u' h
  · simp only [Option.some.injEq] at h
    subst h
    rfl

theorem fitEpoch_labels_length {S Wt Cc : Type} (M : BaseModule S Wt Cc) (p : Params)
    (reset : Option (ResetFn S Wt Cc)) (X : List S) :
    ∀ (pairs : List (ℕ × S)) (s s' : TopoState Wt),
      TopoART.fitEpoch M p reset X pairs s = some s' →
      s'.labels_.length = s.labels_.length := by
  intro pairs
  induction pairs with
  | nil =>
    intro s s' h
    simp only [TopoART.fitEpoch, Option.some.injEq] at h
    subst h
    rfl
  | cons ix rest ih =>
    intro s s' h
    obtain ⟨i, x⟩ := ix
    rw [TopoART.fitEpoch] at h
    split at h
    · exact absurd h (by simp)
    · next s1 hs1 =>
      split at h
      · exact absurd h (by simp)
      · next c s2 evs hs2 =>
        have h3 := ih _ _ h
        have h4 := step_fit_labels M p reset x s1 c s2 evs hs2
        have h5 := step_prune_labels_length M p X s s1 hs1
        simp only [h3]
        simp only [List.length_set]
        rw [h4, h5]

theorem fitIter_labels_length {S Wt Cc : Type} (M : BaseModule S Wt Cc) (p : Params)
    (reset : Option (ResetFn S Wt Cc)) (X : List S) :
    ∀ (k : ℕ) (s s' : TopoState Wt),
      TopoART.fitIter M p reset X k s = some s' →
      s'.labels_.length = s.labels_.length := by
  intro k
  induction k with
  | zero =>
    intro s s' h
    simp only [TopoART.fitIter, Option.some.injEq] at h
    subst h
    rfl
  | succ n ih =>
    intro s s' h
    rw [TopoART.fitIter] at h
    split at h
    · exact absurd h (by simp)
    · next s1 hs1 =>
      rw [ih _ _ h]
      exact fitEpoch_labels_length M p reset X _ _ _ hs1

theorem fit_labels_length {S Wt Cc : Type} (M : BaseModule S Wt Cc) (p : Params)
    (reset : Option (ResetFn S Wt Cc)) (X : List S) (k : ℕ) (s s' : TopoState Wt)
    (h : TopoART.fit M p reset X k s = some s') :
    s'.labels_.length = X.length := by
  unfold TopoART.fit at h
  have := fitIter_labels_length M p reset X k _ _ h
  simpa using this

/-- C9: fit is a pure function of (matcher, params, reset policy, dataset,
epoch count, prior state): two completed runs on the same inputs produce
identical label buffers and identical adjacency matrices, and the label
buffer holds exactly one label per input sample.  The embedding introduces
no nondeterminism because the source core has none. -/
theorem fit_deterministic {S Wt Cc : Type} (M : BaseModule S Wt Cc) (p : Params)
    (reset : Option (ResetFn S Wt Cc)) (X : List S) (k : ℕ) (s0 r1 r2 : TopoState Wt)
    (h1 : TopoART.fit M p reset X k s0 = some r1)
    (h2 : TopoART.fit M p reset X k s0 = some r2) :
    r1.labels_ = r2.labels_ ∧ r1.adjacency = r2.adjacency ∧
    r1.labels_.length = X.length := by
  have he : r1 = r2 := Option.some.inj (h1.symm.trans h2)
  subst he
  exact ⟨rfl, rfl, fit_labels_length M p reset X k s0 r1 h1⟩

theorem fit_deterministic_witness :
    fitTwoResult.labels_ = fitTwoResult.labels_ ∧
    fitTwoResult.adjacency = fitTwoResult.adjacency ∧
    fitTwoResult.labels_.length = [(1 : ℚ), 2].length :=
  fit_deterministic Mnew pEx none [(1 : ℚ), 2] 1 (initState ℚ) fitTwoResult fitTwoResult
    (by decide) (by decide)

theorem step_fit_learning_rates_witness :
    evsTwo = [] ∨
    (∃ c1, evsTwo = [⟨c1, pEx2⟩] ∧ 0 = c1) ∨
    (∃ c1 c2, evsTwo = [⟨c1, pEx2⟩, ⟨c2, { pEx2 with beta := pEx2.beta_lower }⟩] ∧ 0 = c1) :=
  step_fit_learning_rates Mres pEx2 none 1 sOne 0 sOneAfter evsTwo (by decide)

theorem second_resonance_adjacency_witness :
    (∀ e1 e2, evsTwo = [e1, e2] →
      sOneAfter.counter = sOne.counter ∧
      ∀ i j, adjEntry sOneAfter.adjacency i j =
        adjEntry sOne.adjacency i j + (if i = e1.cat ∧ j = e2.cat then 1 else 0)) ∧
    ((evsTwo).length ≤ 1 → ∀ i j, adjEntry sOneAfter.adjacency i j ≤ adjEntry sOne.adjacency i j) ∧
    (∀ (Y : List ℚ) (u u' : TopoState ℚ),
      TopoART.prune Mres pEx2 Y u = some u' → u'.adjacency = u.adjacency) :=
  second_resonance_adjacency Mres pEx2 none 1 sOne 0 sOneAfter evsTwo
    (by decide) (by decide) (by decide)

theorem mem_trueIndices : ∀ (m : List Bool) (j : ℕ),
    j ∈ trueIndices m ↔ (m.getD j false = true ∧ j < m.length) := by
  intro m
  induction m with
  | nil => intro j; simp [trueIndices]
  | cons b rest ih =>
    intro j
    simp only [trueIndices]
    split
    · next hb =>
      subst hb
      cases j with
      | zero => simp
      | succ k =>
        simp only [List.mem_cons, List.mem_map, List.getD_cons_succ, List.length_cons]
        constructor
        · rintro (hk | ⟨a, ha, hak⟩)
          · exact absurd hk (by simp)
          · have : a = k := by omega
            subst this
            have := (ih a).1 ha
            exact ⟨this.1, by omega⟩
        · rintro ⟨h1, h2⟩
          exact Or.inr ⟨k, (ih k).2 ⟨h1, by omega⟩, rfl⟩
    · next hb =>
      have hb' : b = false := by
        cases b
        · rfl
        · exact absurd rfl hb
      subst hb'
      cases j with
      | zero => simp
      | succ k =>
        simp only [List.mem_map, List.getD_cons_succ, List.length_cons]
        constructor
        · rintro ⟨a, ha, hak⟩
          have : a = k := by omega
          subst this
          have := (ih a).1 ha
          exact ⟨this.1, by omega⟩
        · rintro ⟨h1, h2⟩
          exact ⟨k, (ih k).2 ⟨h1, by omega⟩, rfl⟩

theorem getD_zipWith_or : ∀ (a b : List Bool), a.length = b.length → ∀ (i : ℕ),
    (List.zipWith or a b).getD i false = (a.getD i false || b.getD i false) := by
  intro a
  induction a with
  | nil =>
    intro b hb i
    have : b = [] := by
      cases b
      · rfl
      · simp at hb
    subst this
    simp
  | cons x t ih =>
    intro b hb i
    cases b with
    | nil => simp at hb
    | cons y u =>
      cases i with
      | zero => simp
      | succ k =>
        simp only [List.zipWith_cons_cons, List.getD_cons_succ]
        exact ih u (by simpa using hb) k

theorem get?_posIn : ∀ (l : List ℕ) (a : ℕ), a ∈ l → l.get? (posIn a l) = some a := by
  intro l
  induction l with
  | nil => intro a ha; simp at ha
  | cons b t ih =>
    intro a ha
    simp only [posIn]
    split
    · next hb => simp [hb]
    · next hb =>
      have : a ∈ t := by
        rcases List.mem_cons.1 ha with h | h
        · exact absurd h.symm hb
        · exact h
      simpa using ih a this

theorem trueIndices_cons_true (m : List Bool) :
    trueIndices (true :: m) = 0 :: (trueIndices m).map (· + 1) := rfl

theorem trueIndices_cons_false (m : List Bool) :
    trueIndices (false :: m) = (trueIndices m).map (· + 1) := rfl

theorem keepPermanent_cons_true {Wt : Type} (w : Wt) (W : List Wt) (mask : List Bool) :
    TopoART.keepPermanent (w :: W) (true :: mask) = w :: TopoART.keepPermanent W mask := rfl

theorem keepPermanent_cons_false {Wt : Type} (w : Wt) (W : List Wt) (mask : List Bool) :
    TopoART.keepPermanent (w :: W) (false :: mask) = TopoART.keepPermanent W mask := rfl

theorem keepPermanent_get {Wt : Type} : ∀ (W : List Wt) (mask : List Bool),
    mask.length = W.length → ∀ (k : ℕ),
    (TopoART.keepPermanent W mask).get? k =
      ((trueIndices mask).get? k).bind (fun j => W.get? j) := by
  intro W
  induction W with
  | nil =>
    intro mask hm k
    have : mask = [] := by
      cases mask
      · rfl
      · simp at hm
    subst this
    simp [TopoART.keepPermanent, trueIndices]
  | cons w W' ih =>
    intro mask hm k
    cases mask with
    | nil => simp at hm
    | cons b mask' =>
      have hm' : mask'.length = W'.length := by simpa using hm
      cases b with
      | true =>
        rw [keepPermanent_cons_true, trueIndices_cons_true]
        cases k with
        | zero => simp
        | succ j =>
          simp only [List.get?_cons_succ, List.get?_map]
          rw [ih mask' hm' j]
          cases hj : (trueIndices mask').get? j with
          | none => simp
          | some a => simp
      | false =>
        rw [keepPermanent_cons_false, trueIndices_cons_false]
        simp only [List.get?_map]
        rw [ih mask' hm' k]
        cases hj : (trueIndices mask').get? k with
        | none => simp
        | some a => simp

theorem mapM_get?_isSome {α : Type} : ∀ (perm : List ℕ) (counter : List α),
    (∀ j ∈ perm, j < counter.length) →
    ∃ cs, perm.mapM (fun j => counter.get? j) = some cs := by
  intro perm
  induction perm with
  | nil => intro counter _; exact ⟨[], rfl⟩
  | cons j t ih =>
    intro counter h
    have hj : j < counter.length := h j (by simp)
    obtain ⟨v, hv⟩ : ∃ v, counter.get? j = some v := ⟨_, List.get?_eq_get hj⟩
    obtain ⟨cs, hcs⟩ := ih counter (fun a ha => h a (by simp [ha]))
    refine ⟨v :: cs, ?_⟩
    rw [List.mapM_cons, hv, hcs]
    rfl

theorem pruneRemap_isSome {S Wt Cc : Type} (M : BaseModule S Wt Cc) (p : Params)
    (Wk : List Wt) (perm : List ℕ) (hWk : Wk ≠ []) :
    ∀ (pairs : List (ℕ × S)) (labels counter : List ℕ),
      (∀ ix ∈ pairs, ix.1 < labels.length) →
      ∃ lc, TopoART.pruneRemap M p Wk perm pairs labels counter = some lc := by
  intro pairs
  induction pairs with
  | nil => intro labels counter _; exact ⟨(labels, counter), rfl⟩
  | cons ix rest ih =>
    intro labels counter h
    obtain ⟨i, x⟩ := ix
    have hi : i < labels.length := h (i, x) (by simp)
    obtain ⟨l, hl⟩ : ∃ l, labels.get? i = some l := ⟨_, List.get?_eq_get hi⟩
    rw [pruneRemap_cons, hl]
    dsimp only
    by_cases hmem : l ∈ perm
    · rw [if_pos hmem]
      exact ih _ _ (fun a ha => by simpa [List.length_set] using h a (by simp [ha]))
    · rw [if_neg hmem]
      cases Wk with
      | nil => exact absurd rfl hWk
      | cons w Wk' =>
        exact ih _ _ (fun a ha => by simpa [List.length_set] using h a (by simp [ha]))

/-- C3: from a size-aligned state (counter, mask and weight list of equal
length, label buffer matching the dataset), a prune pass applied while
category i carries the permanence flag completes, keeps that category's
weight (at its remapped position in the surviving list), and leaves its
flag set — regardless of the category's current counter value. -/
theorem prune_preserves_permanent {S Wt Cc : Type} (M : BaseModule S Wt Cc) (p : Params)
    (X : List S) (s : TopoState Wt) (i : ℕ)
    (hcm : s.counter.length = s.W.length)
    (hmm : s.permanent_mask.length = s.W.length)
    (hlab : s.labels_.length = X.length)
    (hi : i < s.W.length)
    (hflag : s.permanent_mask.getD i false = true) :
    ∃ s', TopoART.prune M p X s = some s' ∧
      s'.permanent_mask.getD i false = true ∧
      s'.W.get? (posIn i (trueIndices s'.permanent_mask)) = s.W.get? i := by
  set mask := List.zipWith or s.permanent_mask
    (s.counter.map (fun c => decide (p.phi ≤ c))) with hmaskdef
  have hlen_eq : (s.counter.map (fun c => decide (p.phi ≤ c))).length = s.permanent_mask.length := by
    simp [hcm, hmm]
  have hpm : TopoART.pruneMask p s = some mask := by
    unfold TopoART.pruneMask broadcastOr
    rw [if_pos hlen_eq]
  have hmlen : mask.length = s.W.length := by
    rw [hmaskdef]
    simp [List.length_zipWith, hcm, hmm]
  have hmaski : mask.getD i false = true := by
    rw [hmaskdef, getD_zipWith_or _ _ hlen_eq.symm i, hflag]
    rfl
  have himem : i ∈ trueIndices mask :=
    (mem_trueIndices mask i).2 ⟨hmaski, by rw [hmlen]; exact hi⟩
  obtain ⟨cs, hcs⟩ := mapM_get?_isSome (trueIndices mask) s.counter
    (fun j hj => by
      have := (mem_trueIndices mask j).1 hj
      rw [hcm]
      rw [hmlen] at this
      exact this.2)
  have hWkget : (TopoART.keepPermanent s.W mask).get? (posIn i (trueIndices mask)) =
      s.W.get? i := by
    rw [keepPermanent_get s.W mask hmlen, get?_posIn _ _ himem]
    rfl
  have hWi : s.W.get? i = some (s.W.get ⟨i, hi⟩) := List.get?_eq_get hi
  have hWkne : TopoART.keepPermanent s.W mask ≠ [] := by
    intro he
    rw [he] at hWkget
    rw [hWi] at hWkget
    exact absurd hWkget (by simp)
  obtain ⟨lc, hlc⟩ := pruneRemap_isSome M p (TopoART.keepPermanent s.W mask)
    (trueIndices mask) hWkne X.enum s.labels_ cs
    (fun ix hx => by
      rw [hlab]
      rw [List.enum_eq_zip_range] at hx
      have := List.of_mem_zip hx
      simpa using this.1)
  have hp : TopoART.prune M p X s =
      some { s with W := TopoART.keepPermanent s.W mask, permanent_mask := mask,
                    counter := lc.2, labels_ := lc.1 } := by
    unfold TopoART.prune
    rw [hpm]
    dsimp only
    rw [hcs]
    dsimp only
    rw [hlc]
  exact ⟨_, hp, hmaski, hWkget⟩

theorem getD_eq_get?_getD (l : List ℕ) (n d : ℕ) : l.getD n d = (l.get? n).getD d := rfl

theorem pruneRemap_spec {S Wt Cc : Type} (M : BaseModule S Wt Cc) (p : Params)
    (Wk : List Wt) (perm : List ℕ) :
    ∀ (pairs : List (ℕ × S)) (labels counter L C : List ℕ),
      TopoART.pruneRemap M p Wk perm pairs labels counter = some (L, C) →
      (pairs.map Prod.fst).Nodup →
      (∀ ix ∈ pairs, ix.1 < labels.length) →
      Wk.length ≤ counter.length →
      (∀ j, j ∉ pairs.map Prod.fst → L.get? j = labels.get? j) ∧
      (∀ ix ∈ pairs, L.get? ix.1 =
        some (TopoART.remapValue M p Wk perm (labels.getD ix.1 0) ix.2)) ∧
      (∀ j, C.getD j 0 = counter.getD j 0 +
        TopoART.reassignedCount M p Wk perm labels pairs j) ∧
      C.length = counter.length := by
  intro pairs
  induction pairs with
  | nil =>
    intro labels counter L C h _ _ _
    rw [pruneRemap_nil] at h
    simp only [Option.some.injEq, Prod.mk.injEq] at h
    obtain ⟨h1, h2⟩ := h
    subst h1
    subst h2
    refine ⟨fun j _ => rfl, fun ix hx => absurd hx (by simp), fun j => ?_, rfl⟩
    simp [TopoART.reassignedCount]
  | cons ix rest ih =>
    intro labels counter L C h hnd hbound hWc
    obtain ⟨i, x⟩ := ix
    have hi : i < labels.length := hbound (i, x) (by simp)
    obtain ⟨l, hl⟩ : ∃ l, labels.get? i = some l := ⟨_, List.get?_eq_get hi⟩
    have hgetD : labels.getD i 0 = l := by
      rw [getD_eq_get?_getD, hl]
      rfl
    have hndrest : (rest.map Prod.fst).Nodup := by
      simpa using hnd.of_cons
    have hinotin : i ∉ rest.map Prod.fst := by
      have h' : (i :: rest.map Prod.fst).Nodup := by simpa using hnd
      exact (List.nodup_cons.1 h').1
    rw [pruneRemap_cons, hl] at h
    dsimp only at h
    by_cases hmem : l ∈ perm
    · rw [if_pos hmem] at h
      have hrest := ih (labels.set i (posIn l perm)) counter L C h hndrest
        (fun a ha => by simpa [List.length_set] using hbound a (by simp [ha])) hWc
      obtain ⟨h1, h2, h3, h4⟩ := hrest
      refine ⟨?_, ?_, ?_, h4⟩
      · intro j hj
        simp only [List.map_cons, List.mem_cons] at hj
        push_neg at hj
        rw [h1 j (by simpa using hj.2)]
        exact List.get?_set_ne _ _ (hj.1.symm)
      · intro a ha
        rcases List.mem_cons.1 ha with hhead | htail
        · subst hhead
          rw [h1 i hinotin, List.get?_set_eq_of_lt _ hi]
          rw [hgetD, TopoART.remapValue, if_pos hmem]
        · have hne : i ≠ a.1 := by
            intro he
            exact hinotin (he ▸ List.mem_map_of_mem Prod.fst htail)
          have := h2 a htail
          rw [this]
          congr 2
          rw [getD_eq_get?_getD, List.get?_set_ne _ _ hne, ← getD_eq_get?_getD]
      · intro j
        rw [h3 j]
        congr 1
        unfold TopoART.reassignedCount
        rw [List.filter_cons]
        have hfirst : decide (labels.getD (i, x).1 0 ∉ perm) = false := by
          show decide (labels.getD i 0 ∉ perm) = false
          rw [hgetD]
          simp [hmem]
        have hpredhead : (decide (labels.getD (i, x).1 0 ∉ perm) &&
            decide (argmaxIdx (Wk.map (fun w => (M.category_choice (i, x).2 w p).1)) = j)) = false := by
          rw [hfirst, Bool.false_and]
        rw [hpredhead]
        simp only [Bool.false_eq_true, if_false]
        congr 1
        apply List.filter_congr
        intro a ha
        have hne : i ≠ a.1 := by
          intro he
          exact hinotin (he ▸ List.mem_map_of_mem Prod.fst ha)
        congr 2
        rw [getD_eq_get?_getD, List.get?_set_ne _ _ hne, ← getD_eq_get?_getD]
    · rw [if_neg hmem] at h
      rcases Wk with _ | ⟨w0, Wk0⟩
      · exact absurd h (by simp)
      · dsimp only at h
        have hWkne : ((w0 :: Wk0).map (fun w => (M.category_choice x w p).1)) ≠ [] := by simp
        set nl := argmaxIdx ((w0 :: Wk0).map (fun w => (M.category_choice x w p).1)) with hnldef
        have hnl : nl < (w0 :: Wk0).length := by
          have := argmaxIdx_lt_length _ hWkne
          rw [hnldef]
          simpa using this
        have hnlc : nl < counter.length := lt_of_lt_of_le hnl hWc
        have hrest := ih (labels.set i nl) (bumpRow counter nl) L C h hndrest
          (fun a ha => by simpa [List.length_set] using hbound a (by simp [ha]))
          (by rw [bumpRow_length]; exact hWc)
        obtain ⟨h1, h2, h3, h4⟩ := hrest
        refine ⟨?_, ?_, ?_, by rw [h4, bumpRow_length]⟩
        · intro j hj
          simp only [List.map_cons, List.mem_cons] at hj
          push_neg at hj
          rw [h1 j (by simpa using hj.2)]
          exact List.get?_set_ne _ _ (hj.1.symm)
        · intro a ha
          rcases List.mem_cons.1 ha with hhead | htail
          · subst hhead
            rw [h1 i hinotin, List.get?_set_eq_of_lt _ hi]
            rw [hgetD, TopoART.remapValue, if_neg hmem]
          · have hne : i ≠ a.1 := by
              intro he
              exact hinotin (he ▸ List.mem_map_of_mem Prod.fst htail)
            have := h2 a htail
            rw [this]
            congr 2
            rw [getD_eq_get?_getD, List.get?_set_ne _ _ hne, ← getD_eq_get?_getD]
        · intro j
          rw [h3 j, bumpRow_getD counter nl j hnlc]
          have hcongr : TopoART.reassignedCount M p (w0 :: Wk0) perm (labels.set i nl) rest j =
              TopoART.reassignedCount M p (w0 :: Wk0) perm labels rest j := by
            unfold TopoART.reassignedCount
            congr 1
            apply List.filter_congr
            intro a ha
            have hne : i ≠ a.1 := by
              intro he
              exact hinotin (he ▸ List.mem_map_of_mem Prod.fst ha)
            congr 2
            rw [getD_eq_get?_getD, List.get?_set_ne _ _ hne, ← getD_eq_get?_getD]
          rw [hcongr]
          have hfirst : decide (labels.getD i 0 ∉ perm) = true := by
            rw [hgetD]
            simp [hmem]
          unfold TopoART.reassignedCount
          rw [List.filter_cons]
          dsimp only
          by_cases hj : nl = j
          · have hpred : (decide (labels.getD i 0 ∉ perm) && decide (nl = j)) = true := by
              rw [hfirst, Bool.true_and]
              simp [hj]
            rw [hpred]
            have hjx : (if j = nl then 1 else 0) = 1 := by simp [hj.symm]
            rw [hjx]
            simp only [if_true, List.length_cons]
            omega
          · have hpred : (decide (labels.getD i 0 ∉ perm) && decide (nl = j)) = false := by
              rw [hfirst, Bool.true_and]
              simp [hj]
            rw [hpred]
            have hjne : ¬(j = nl) := fun he => hj he.symm
            have hjx : (if j = nl then 1 else 0) = 0 := if_neg hjne
            rw [hjx]
            simp only [Bool.false_eq_true, if_false]
            omega

theorem mapM_length {α β : Type} (f : α → Option β) : ∀ (l : List α) (cs : List β),
    l.mapM f = some cs → cs.length = l.length := by
  intro l
  induction l with
  | nil =>
    intro cs h
    simp only [List.mapM_nil, Option.pure_def, Option.some.injEq] at h
    rw [← h]
    rfl
  | cons a t ih =>
    intro cs h
    rw [List.mapM_cons] at h
    cases hfa : f a with
    | none => rw [hfa] at h; simp at h
    | some b =>
      rw [hfa] at h
      cases hmt : t.mapM f with
      | none => rw [hmt] at h; simp at h
      | some cs' =>
        rw [hmt] at h
        simp only [Option.bind_eq_bind, Option.some_bind, Option.pure_def,
          Option.some.injEq] at h
        rw [← h]
        simp [ih cs' hmt]

theorem keepPermanent_length_le {Wt : Type} : ∀ (W : List Wt) (mask : List Bool),
    (TopoART.keepPermanent W mask).length ≤ (trueIndices mask).length := by
  intro W
  induction W with
  | nil =>
    intro mask
    have : TopoART.keepPermanent ([] : List Wt) mask = [] := by
      unfold TopoART.keepPermanent
      simp
    rw [this]
    simp
  | cons w W' ih =>
    intro mask
    cases mask with
    | nil =>
      have : TopoART.keepPermanent (w :: W') [] = [] := rfl
      rw [this]
      simp
    | cons b m' =>
      cases b with
      | false =>
        rw [keepPermanent_cons_false, trueIndices_cons_false]
        simpa using ih m'
      | true =>
        rw [keepPermanent_cons_true, trueIndices_cons_true]
        simpa using ih m'

/-- C10: a completed prune pass walks the ENTIRE dataset: every label slot
(including slots of samples not yet visited in the current epoch) is either
rewritten through the survivor remap or re-assigned as the argmax activation
over the surviving weights, and the final counter of each survivor is its
compacted value plus the number of slots re-assigned to it. -/
theorem prune_remaps_all_labels {S Wt Cc : Type} (M : BaseModule S Wt Cc) (p : Params)
    (X : List S) (s s' : TopoState Wt)
    (h : TopoART.prune M p X s = some s')
    (hlab : s.labels_.length = X.length) :
    ∃ mask, TopoART.pruneMask p s = some mask ∧
      s'.labels_.length = X.length ∧
      (∀ ix ∈ X.enum, s'.labels_.get? ix.1 =
        some (TopoART.remapValue M p (TopoART.keepPermanent s.W mask)
          (trueIndices mask) (s.labels_.getD ix.1 0) ix.2)) ∧
      ∃ counter0, (trueIndices mask).mapM (fun j => s.counter.get? j) = some counter0 ∧
        (∀ j, s'.counter.getD j 0 = counter0.getD j 0 +
          TopoART.reassignedCount M p (TopoART.keepPermanent s.W mask)
            (trueIndices mask) s.labels_ X.enum j) := by
  unfold TopoART.prune at h
  split at h
  · exact absurd h (by simp)
  · next mask hpm =>
    split at h
    · exact absurd h (by simp)
    · next counter0 hcs =>
      split at h
      · exact absurd h (by simp)
      · next lc hlc =>
        simp only [Option.some.injEq] at h
        subst h
        have hnodup : (X.enum.map Prod.fst).Nodup := by
          rw [List.enum_map_fst]
          exact List.nodup_range _
        have hbound : ∀ ix ∈ X.enum, ix.1 < s.labels_.length := by
          intro ix hx
          rw [hlab]
          rw [List.enum_eq_zip_range] at hx
          have := List.of_mem_zip hx
          simpa using this.1
        have hWc : (TopoART.keepPermanent s.W mask).length ≤ counter0.length := by
          rw [mapM_length _ _ _ hcs]
          exact keepPermanent_length_le s.W mask
        obtain ⟨h1, h2, h3, h4⟩ :=
          pruneRemap_spec M p (TopoART.keepPermanent s.W mask) (trueIndices mask)
            X.enum s.labels_ counter0 lc.1 lc.2 (by simpa using hlc) hnodup hbound hWc
        refine ⟨mask, hpm, ?_, h2, counter0, hcs, h3⟩
        have := pruneRemap_labels_length M p _ _ _ _ _ _ _ (show _ from by simpa using hlc)
        simp only [this]
        exact hlab

theorem set_self_of_get? {α : Type} : ∀ (l : List α) (i : ℕ) (a : α),
    l.get? i = some a → l.set i a = l := by
  intro l
  induction l with
  | nil => intro i a h; simp at h
  | cons b t ih =>
    intro i a h
    cases i with
    | zero =>
      simp only [List.get?_cons_zero, Option.some.injEq] at h
      rw [List.set_cons_zero, h]
    | succ k =>
      simp only [List.get?_cons_succ] at h
      rw [List.set_cons_succ, ih k a h]

theorem posIn_zero_trueIndices : ∀ (m : List Bool),
    0 ∈ trueIndices m → posIn 0 (trueIndices m) = 0 := by
  intro m h
  cases m with
  | nil => simp [trueIndices] at h
  | cons b rest =>
    cases b with
    | true => rw [trueIndices_cons_true]; simp [posIn]
    | false =>
      rw [trueIndices_cons_false] at h
      simp only [List.mem_map] at h
      obtain ⟨a, -, ha⟩ := h
      omega

theorem keepPermanent_nil_left {Wt : Type} (mask : List Bool) :
    TopoART.keepPermanent ([] : List Wt) mask = [] := by
  unfold TopoART.keepPermanent
  simp

theorem pruneRemap_zero_id {S Wt Cc : Type} (M : BaseModule S Wt Cc) (p : Params)
    (perm : List ℕ) (hpz : 0 ∈ perm → posIn 0 perm = 0) :
    ∀ (pairs : List (ℕ × S)) (labels counter L C : List ℕ),
      TopoART.pruneRemap M p ([] : List Wt) perm pairs labels counter = some (L, C) →
      (∀ ix ∈ pairs, labels.get? ix.1 = some 0) →
      L = labels ∧ C = counter := by
  intro pairs
  induction pairs with
  | nil =>
    intro labels counter L C h _
    rw [pruneRemap_nil] at h
    simp only [Option.some.injEq, Prod.mk.injEq] at h
    exact ⟨h.1.symm, h.2.symm⟩
  | cons ix rest ih =>
    intro labels counter L C h hz
    obtain ⟨i, x⟩ := ix
    have hl : labels.get? i = some 0 := hz (i, x) (by simp)
    rw [pruneRemap_cons, hl] at h
    dsimp only at h
    by_cases hmem : (0 : ℕ) ∈ perm
    · rw [if_pos hmem] at h
      rw [hpz hmem] at h
      rw [set_self_of_get? labels i 0 hl] at h
      exact ih labels counter L C h (fun a ha => hz a (by simp [ha]))
    · rw [if_neg hmem] at h
      exact absurd h (by simp)

theorem step_fit_empty {S Wt Cc : Type} (M : BaseModule S Wt Cc) (p : Params)
    (reset : Option (ResetFn S Wt Cc)) (x : S) (s : TopoState Wt) (hW : s.W = []) :
    TopoART.step_fit M p reset x s = some (0,
      { W := [M.new_weight x p], adjacency := [[0]], counter := [1],
        permanent_mask := [false], labels_ := s.labels_ }, []) := by
  unfold TopoART.step_fit
  rw [hW]
  simp [TopoART.new_weight_delegating, hW]

theorem step_prune_empty_counter {S Wt Cc : Type} (M : BaseModule S Wt Cc) (p : Params)
    (X : List S) (u : TopoState Wt) (hc : u.counter = []) :
    TopoART.step_prune M p X u = some u := by
  unfold TopoART.step_prune
  rw [hc]
  simp

theorem step_prune_reset {S Wt Cc : Type} (M : BaseModule S Wt Cc) (p : Params)
    (X : List S) (u s1 : TopoState Wt) (hW : u.W = [])
    (hlab : ∀ ix ∈ X.enum, u.labels_.get? ix.1 = some 0)
    (h : TopoART.step_prune M p X u = some s1) :
    s1.W = [] ∧ s1.labels_ = u.labels_ := by
  unfold TopoART.step_prune at h
  dsimp only at h
  split at h
  · unfold TopoART.prune at h
    split at h
    · exact absurd h (by simp)
    · next mask hpm =>
      split at h
      · exact absurd h (by simp)
      · next counter0 hcs =>
        split at h
        · exact absurd h (by simp)
        · next lc hlc =>
          simp only [Option.some.injEq] at h
          rw [hW, keepPermanent_nil_left] at hlc
          have := pruneRemap_zero_id M p (trueIndices mask)
            (posIn_zero_trueIndices mask) X.enum u.labels_ counter0 lc.1 lc.2
            (by simpa using hlc) hlab
          subst h
          refine ⟨?_, ?_⟩
          · show TopoART.keepPermanent u.W mask = []
            rw [hW, keepPermanent_nil_left]
          · show lc.1 = u.labels_
            exact this.1
  · simp only [Option.some.injEq] at h
    subst h
    exact ⟨hW, rfl⟩

theorem fitEpoch_cons {S Wt Cc : Type} (M : BaseModule S Wt Cc) (p : Params)
    (reset : Option (ResetFn S Wt Cc)) (X : List S) (i : ℕ) (x : S)
    (rest : List (ℕ × S)) (s : TopoState Wt) :
    TopoART.fitEpoch M p reset X ((i, x) :: rest) s =
      match TopoART.step_prune M p X s with
      | none => none
      | some s1 =>
        match TopoART.step_fit M p reset x s1 with
        | none => none
        | some (c, s2, _evs) =>
          TopoART.fitEpoch M p reset X rest { s2 with labels_ := s2.labels_.set i c } := rfl

theorem fitIter_succ {S Wt Cc : Type} (M : BaseModule S Wt Cc) (p : Params)
    (reset : Option (ResetFn S Wt Cc)) (X : List S) (k : ℕ) (s : TopoState Wt) :
    TopoART.fitIter M p reset X (k + 1) s =
      match TopoART.fitEpoch M p reset X X.enum s with
      | none => none
      | some s1 => TopoART.fitIter M p reset X k s1 := rfl

theorem get?_replicate_zero (n j : ℕ) (hj : j < n) :
    (List.replicate n (0 : ℕ)).get? j = some 0 := by
  rw [List.get?_eq_get (by simpa using hj)]
  simp

/-- C4 (amended): fit resets the weight list and the label buffer, and the
first sample's bootstrap overwrites counters, mask and adjacency; therefore
whenever a second fit on a used wrapper COMPLETES, its result equals the fit
of a freshly constructed model.  (The claim as stated is refuted by the
counterexample above: the first per-sample prune check of the second fit
still reads the stale counters and can abort the run.) -/
theorem refit_completed_eq_fresh {S Wt Cc : Type} (M : BaseModule S Wt Cc) (p : Params)
    (reset : Option (ResetFn S Wt Cc)) (X : List S) (k : ℕ) (sOld r : TopoState Wt)
    (hX : X ≠ []) (hk : 0 < k)
    (h : TopoART.fit M p reset X k sOld = some r) :
    TopoART.fit M p reset X k (initState Wt) = some r := by
  obtain ⟨x0, X', rfl⟩ : ∃ x0 X', X = x0 :: X' := by
    cases X with
    | nil => exact absurd rfl hX
    | cons a l => exact ⟨a, l, rfl⟩
  obtain ⟨k0, rfl⟩ : ∃ k0, k = k0 + 1 := ⟨k - 1, by omega⟩
  unfold TopoART.fit at h ⊢
  rw [fitIter_succ] at h ⊢
  rw [List.enum_cons] at h ⊢
  rw [fitEpoch_cons] at h ⊢
  have hlabA : ∀ ix ∈ (x0 :: X').enum,
      (List.replicate (x0 :: X').length (0 : ℕ)).get? ix.1 = some 0 := by
    intro ix hx
    apply get?_replicate_zero
    rw [List.enum_eq_zip_range] at hx
    have := List.of_mem_zip hx
    simpa using this.1
  split at h
  · exact absurd h (by simp)
  · next sE hE =>
    split at hE
    · exact absurd hE (by simp)
    · next s1 hs1 =>
      have hinit := step_prune_reset M p (x0 :: X')
        { sOld with W := [], labels_ := List.replicate (x0 :: X').length 0 } s1 rfl
        hlabA hs1
      rw [step_fit_empty M p reset x0 s1 hinit.1] at hE
      dsimp only at hE
      have hfresh : TopoART.step_prune M p (x0 :: X')
          { initState Wt with W := [], labels_ := List.replicate (x0 :: X').length 0 } =
          some { initState Wt with W := [], labels_ := List.replicate (x0 :: X').length 0 } :=
        step_prune_empty_counter M p (x0 :: X') _ rfl
      rw [hfresh]
      dsimp only
      rw [step_fit_empty M p reset x0 _ rfl]
      dsimp only
      rw [hinit.2] at hE
      rw [hE]
      exact h

/-- C3 witness: the aligned state `sPerm` with flagged category 1, pruned
over a two-sample dataset with phi 2. -/
theorem prune_preserves_permanent_witness :
    ∃ s', TopoART.prune Mres pEx [(1 : ℚ), 2] sPerm = some s' ∧
      s'.permanent_mask.getD 1 false = true ∧
      s'.W.get? (posIn 1 (trueIndices s'.permanent_mask)) = sPerm.W.get? 1 :=
  prune_preserves_permanent Mres pEx [(1 : ℚ), 2] sPerm 1 (by decide) (by decide)
    (by decide) (by decide) (by decide)

/-- C10 witness: the dropping prune pass from `sDrop` to `sDropAfter`. -/
theorem prune_remaps_all_labels_witness :
    ∃ mask, TopoART.pruneMask pEx sDrop = some mask ∧
      sDropAfter.labels_.length = [(1 : ℚ), 2].length ∧
      (∀ ix ∈ ([(1 : ℚ), 2]).enum, sDropAfter.labels_.get? ix.1 =
        some (TopoART.remapValue Mres pEx (TopoART.keepPermanent sDrop.W mask)
          (trueIndices mask) (sDrop.labels_.getD ix.1 0) ix.2)) ∧
      ∃ counter0, (trueIndices mask).mapM (fun j => sDrop.counter.get? j) = some counter0 ∧
        (∀ j, sDropAfter.counter.getD j 0 = counter0.getD j 0 +
          TopoART.reassignedCount Mres pEx (TopoART.keepPermanent sDrop.W mask)
            (trueIndices mask) sDrop.labels_ ([(1 : ℚ), 2]).enum j) :=
  prune_remaps_all_labels Mres pEx [(1 : ℚ), 2] sDrop sDropAfter (by decide) (by decide)

/-- C4 amended-claim witness: a second fit that does complete (stale counter
sum 2 is not a multiple of tau 3) equals the fresh fit. -/
theorem refit_completed_eq_fresh_witness :
    TopoART.fit Mnew pEx none [(1 : ℚ), 2] 1 (initState ℚ) = some fitTwoResult :=
  refit_completed_eq_fresh Mnew pEx none [(1 : ℚ), 2] 1 fitTwoResult fitTwoResult
    (by decide) (by decide) (by decide)

